import Mathlib

/-!
Verification of the poker equity-simulation program (`pokerstars.py`).

The program is embedded shallowly:

* A card token typed by the user is a `List Char` (a Python string).
* A `Card` (the treys integer encoding) is modelled as a `Nat` in `0..51`
  via `rank * 4 + suit`; the claims depend only on the 52 card values being
  distinct, not on the particular library bit pattern.
* The treys `Deck()` is the list of all 52 distinct cards; the random
  shuffle of the fresh deck is folded into the explicit random stream that
  drives sampling (order is a randomness detail).
* `random.sample(pop, k)` is modelled by `sampleK`: it consumes values from
  an explicit random stream `rng : Nat → Nat` (read at a running position)
  and draws `k` distinct elements without replacement, returning `none`
  exactly when Python would raise `ValueError` (more draws requested than
  the population holds).
* `treys.Evaluator().evaluate` is an external library collaborator; the
  claims never depend on its value, so it is a parameter
  `ev : List Nat → List Nat → Nat` of the engine (lower score = stronger
  hand, as in treys).
* Python exceptions become `Except String`; float division in the final
  percentage becomes exact division in `ℚ`.
-/

/-- The valid rank characters, from `validate_cards` in the source. -/
def valid_ranks : List Char := "23456789TJQKA".toList

/-- The valid suit characters, from `validate_cards` in the source. -/
def valid_suits : List Char := "shdc".toList

/-- Embedding of `validate_cards(cards)`: every token must have length 2,
a first character among the ranks and a second among the suits.  The
Python loop returns `False` at the first bad token, which is `List.all`. -/
def validate_cards (cards : List (List Char)) : Bool :=
  cards.all fun card =>
    decide (card.length = 2) && valid_ranks.contains (card.getD 0 ' ')
      && valid_suits.contains (card.getD 1 ' ')

/-- Embedding of `treys.Card.new(token)`: reads the rank character at index
0 and the suit character at index 1 (an out-of-range index or an unknown
character raises in Python, hence `none`) and encodes the card as
`rankIndex * 4 + suitIndex`, a number in `0..51`. -/
def parseCard (card : List Char) : Option Nat := do
  let r ← card.get? 0
  let s ← card.get? 1
  let ri ← valid_ranks.findIdx? (fun c => c = r)
  let si ← valid_suits.findIdx? (fun c => c = s)
  pure (ri * 4 + si)

/-- Embedding of `treys.Deck()`: the 52 distinct cards.  (The shuffled
order of the Python deck is part of the ambient randomness; the claims
quantify over the random stream, so a fixed enumeration is used.) -/
def freshDeck : List Nat := List.range 52

/-- Embedding of the removal loop of `calculate_win_probability`
(`for card in hole_card_ints + board_card_ints: ...`): each requested card
is removed from the deck if present, otherwise a `ValueError` naming the
card is raised. -/
def removeCards (deck : List Nat) (cards : List Nat) : Except String (List Nat) :=
  match cards with
  | [] => Except.ok deck
  | c :: rest =>
    if deck.contains c then removeCards (deck.erase c) rest
    else Except.error ("Card " ++ toString c ++ " is not available in the deck.")

/-- Embedding of `random.sample(pool, k)` driven by the explicit random
stream `rng` read from position `pos`: draw `k` elements without
replacement (each draw picks an index into the remaining pool and removes
the picked element), returning the drawn list and the next stream
position.  `none` corresponds to the Python `ValueError` when `k` exceeds
the population size. -/
def sampleK (pool : List Nat) (k : Nat) (rng : Nat → Nat) (pos : Nat) :
    Option (List Nat × Nat) :=
  match k with
  | 0 => some ([], pos)
  | Nat.succ k' =>
    if pool.length = 0 then none
    else
      match sampleK (pool.erase (pool.getD (rng pos % pool.length) 0)) k' rng (pos + 1) with
      | none => none
      | some (cs, pos') => some (pool.getD (rng pos % pool.length) 0 :: cs, pos')

/-- Embedding of the list comprehension
`[sample(deck.cards, 2) for _ in range(count)]`: the two hole cards of each opponent are drawn by an independent `sample` call on the same unmodified
deck (this is the sampling scheme of the source, not a partition of one
shuffle). -/
def sampleOpponents (deck : List Nat) (count : Nat) (rng : Nat → Nat) (pos : Nat) :
    Option (List (List Nat) × Nat) :=
  match count with
  | 0 => some ([], pos)
  | Nat.succ n =>
    match sampleK deck 2 rng pos with
    | none => none
    | some (h, pos') =>
      match sampleOpponents deck n rng pos' with
      | none => none
      | some (rest, pos'') => some (h :: rest, pos'')

/-- The dealing part of one trial of `calculate_win_probability`: sample
`num_players - 1` opponent hands from the base deck, then sample the
`5 - len(board_cards)` board-completion cards from
`[c for c in deck.cards if c not in sum(opponents_hands, [])]`. -/
def dealTrial (deck : List Nat) (boardLen np : Nat) (rng : Nat → Nat) (pos : Nat) :
    Option (List (List Nat) × List Nat × Nat) :=
  match sampleOpponents deck (np - 1) rng pos with
  | none => none
  | some (opps, pos1) =>
    match sampleK (deck.filter fun c => !((opps.flatten).contains c))
        (5 - boardLen) rng pos1 with
    | none => none
    | some (rb, pos2) => some (opps, rb, pos2)

/-- The local variables of the simulation loop in
`calculate_win_probability`: the base deck (`deck.cards`), the hero hole
card integers, the known board card integers, the `wins` counter, and the
position reached in the random stream. -/
structure SimState where
  deck : List Nat
  hole : List Nat
  board : List Nat
  wins : Nat
  pos : Nat
  deriving Repr, DecidableEq

/-- One iteration of the simulation loop: deal the trial, build
`final_board = board_card_ints + remaining_board`, evaluate hero and all
opponents, and do `wins += 1` when `hero_score <= min(opponent_scores)`.
`min([])` raises in Python, hence the error case on no opponents. -/
def trialStep (ev : List Nat → List Nat → Nat) (np : Nat) (rng : Nat → Nat)
    (st : SimState) : Except String SimState :=
  match dealTrial st.deck st.board.length np rng st.pos with
  | none => Except.error "Sample larger than population or is negative"
  | some (opps, rb, pos') =>
    match (opps.map fun opp_hand => ev (st.board ++ rb) opp_hand).min? with
    | none => Except.error "min arg is an empty sequence"
    | some m =>
      Except.ok { st with wins := if ev (st.board ++ rb) st.hole ≤ m
                            then st.wins + 1 else st.wins,
                          pos := pos' }

/-- The simulation loop `for _ in range(num_simulations)`. -/
def runSim (ev : List Nat → List Nat → Nat) (np : Nat) (rng : Nat → Nat) :
    Nat → SimState → Except String SimState
  | 0, st => Except.ok st
  | Nat.succ n, st =>
    match trialStep ev np rng st with
    | Except.error e => Except.error e
    | Except.ok st' => runSim ev np rng n st'

/-- Embedding of `calculate_win_probability(hole_cards, board_cards,
num_players, num_simulations)`: parse the tokens (a `KeyError` becomes the
`ValueError` "Invalid card"), remove the parsed cards from a fresh deck,
run the simulations, and return `(wins / num_simulations) * 100`.
Division is modelled in `ℚ`, which is total; the Python
`ZeroDivisionError` at `num_simulations = 0` has no error value here, so
every theorem about the returned percentage carries the hypothesis
`0 < num_simulations`. -/
def calculate_win_probability (ev : List Nat → List Nat → Nat)
    (hole_cards board_cards : List (List Char)) (num_players num_simulations : Nat)
    (rng : Nat → Nat) : Except String ℚ :=
  match hole_cards.mapM parseCard, board_cards.mapM parseCard with
  | some hole_card_ints, some board_card_ints =>
    match removeCards freshDeck (hole_card_ints ++ board_card_ints) with
    | Except.error e => Except.error e
    | Except.ok deck =>
      match runSim ev num_players rng num_simulations
          ⟨deck, hole_card_ints, board_card_ints, 0, 0⟩ with
      | Except.error e => Except.error e
      | Except.ok st => Except.ok ((st.wins : ℚ) / (num_simulations : ℚ) * 100)
  | _, _ => Except.error "Invalid card"

/-- C4: `validate_cards(cards)` returns `True` iff every element is a
string of exactly two characters, the first from `23456789TJQKA` and the
second from `shdc`; any wrong-length token, unknown rank or unknown suit
makes it return `False`. -/
theorem validate_cards_spec (cards : List (List Char)) :
    validate_cards cards = true ↔
      ∀ card ∈ cards, ∃ r s, card = [r, s] ∧ r ∈ valid_ranks ∧ s ∈ valid_suits := by
  unfold validate_cards
  rw [List.all_eq_true]
  constructor
  · intro h card hc
    have := h card hc
    simp only [Bool.and_eq_true, decide_eq_true_eq] at this
    simp only [List.elem_eq_mem, decide_eq_true_eq] at this
    obtain ⟨⟨hlen, hr⟩, hs⟩ := this
    match card, hlen with
    | [r, s], _ =>
      exact ⟨r, s, rfl, by simpa using hr, by simpa using hs⟩
  · intro h card hc
    obtain ⟨r, s, rfl, hr, hs⟩ := h card hc
    simp [hr, hs]

/-- Every draw of `sampleK` has exactly the requested number of cards. -/
theorem sampleK_length {k : Nat} {pool : List Nat} {rng : Nat → Nat} {pos : Nat}
    {cs : List Nat} {pos' : Nat} (h : sampleK pool k rng pos = some (cs, pos')) :
    cs.length = k := by
  induction k generalizing pool pos cs pos' with
  | zero =>
    rw [sampleK] at h
    simp only [Option.some.injEq, Prod.mk.injEq] at h
    simp [← h.1]
  | succ k ih =>
    rw [sampleK] at h
    split at h
    · exact absurd h (by simp)
    · split at h
      · exact absurd h (by simp)
      · rename_i cs2 p2 hrec
        simp only [Option.some.injEq, Prod.mk.injEq] at h
        rw [← h.1]
        simp [ih hrec]

/-- Every card drawn by `sampleK` comes from the population. -/
theorem sampleK_subset {k : Nat} {pool : List Nat} {rng : Nat → Nat} {pos : Nat}
    {cs : List Nat} {pos' : Nat} (h : sampleK pool k rng pos = some (cs, pos')) :
    ∀ c ∈ cs, c ∈ pool := by
  induction k generalizing pool pos cs pos' with
  | zero =>
    rw [sampleK] at h
    simp only [Option.some.injEq, Prod.mk.injEq] at h
    simp [← h.1]
  | succ k ih =>
    rw [sampleK] at h
    split at h
    · exact absurd h (by simp)
    · rename_i hlen
      split at h
      · exact absurd h (by simp)
      · rename_i cs2 p2 hrec
        simp only [Option.some.injEq, Prod.mk.injEq] at h
        rw [← h.1]
        intro c hc
        have hmem : pool.getD (rng pos % pool.length) 0 ∈ pool := by
          have hlt : rng pos % pool.length < pool.length :=
            Nat.mod_lt _ (Nat.pos_of_ne_zero hlen)
          rw [List.getD_eq_getElem _ _ hlt]
          exact List.getElem_mem hlt
        rcases List.mem_cons.mp hc with rfl | hc2
        · exact hmem
        · exact List.erase_subset _ _ (ih hrec c hc2)

/-- `sampleK` draws without replacement: on a duplicate-free population the
drawn cards are pairwise distinct. -/
theorem sampleK_nodup {k : Nat} {pool : List Nat} {rng : Nat → Nat} {pos : Nat}
    {cs : List Nat} {pos' : Nat} (hnd : pool.Nodup)
    (h : sampleK pool k rng pos = some (cs, pos')) : cs.Nodup := by
  induction k generalizing pool pos cs pos' with
  | zero =>
    rw [sampleK] at h
    simp only [Option.some.injEq, Prod.mk.injEq] at h
    rw [← h.1]
    exact List.nodup_nil
  | succ k ih =>
    rw [sampleK] at h
    split at h
    · exact absurd h (by simp)
    · rename_i hlen
      split at h
      · exact absurd h (by simp)
      · rename_i cs2 p2 hrec
        simp only [Option.some.injEq, Prod.mk.injEq] at h
        rw [← h.1]
        refine List.nodup_cons.mpr ⟨?_, ih (hnd.erase _) hrec⟩
        intro hbad
        have := (hnd.mem_erase_iff).mp (sampleK_subset hrec _ hbad)
        exact this.1 rfl

/-- `sampleK` succeeds whenever the population is large enough. -/
theorem sampleK_isSome {k : Nat} {pool : List Nat} {rng : Nat → Nat} {pos : Nat}
    (hk : k ≤ pool.length) : (sampleK pool k rng pos).isSome := by
  induction k generalizing pool pos with
  | zero => rw [sampleK]; rfl
  | succ k ih =>
    rw [sampleK]
    have hlen : pool.length ≠ 0 := by omega
    simp only [hlen, if_false]
    have hmem : pool.getD (rng pos % pool.length) 0 ∈ pool := by
      have hlt : rng pos % pool.length < pool.length :=
        Nat.mod_lt _ (Nat.pos_of_ne_zero hlen)
      rw [List.getD_eq_getElem _ _ hlt]
      exact List.getElem_mem hlt
    have herase : k ≤ (pool.erase (pool.getD (rng pos % pool.length) 0)).length := by
      rw [List.length_erase_of_mem hmem]
      omega
    cases hrec : sampleK (pool.erase (pool.getD (rng pos % pool.length) 0)) k rng (pos + 1) with
    | none =>
      have hcontra := @ih (pool.erase (pool.getD (rng pos % pool.length) 0)) (pos + 1) herase
      rw [hrec] at hcontra
      exact absurd hcontra (by simp)
    | some r => cases r; rfl

/-- The removal loop succeeds on a duplicate-free request of present cards
and behaves as set difference: the result keeps exactly the cards not
requested, and one card leaves per request. -/
theorem removeCards_spec {S : List Nat} {deck : List Nat} (hd : deck.Nodup)
    (hS : S.Nodup) (hsub : S ⊆ deck) :
    ∃ d', removeCards deck S = Except.ok d' ∧ d'.Nodup ∧
      d'.length = deck.length - S.length ∧ (∀ c, c ∈ d' ↔ c ∈ deck ∧ c ∉ S) := by
  induction S generalizing deck with
  | nil =>
    refine ⟨deck, rfl, hd, by simp, ?_⟩
    simp
  | cons c rest ih =>
    have hc : c ∈ deck := hsub (List.mem_cons_self c rest)
    have hrestS : rest.Nodup := (List.nodup_cons.mp hS).2
    have hcrest : c ∉ rest := (List.nodup_cons.mp hS).1
    have hrestsub : rest ⊆ deck.erase c := by
      intro x hx
      refine (hd.mem_erase_iff).mpr ⟨?_, hsub (List.mem_cons_of_mem _ hx)⟩
      intro hxc
      exact hcrest (hxc ▸ hx)
    obtain ⟨d', hrun, hnd', hlen', hmem'⟩ := ih (hd.erase c) hrestS hrestsub
    refine ⟨d', ?_, hnd', ?_, ?_⟩
    · rw [removeCards]
      have : deck.contains c = true := by simpa using hc
      simp only [this, if_true]
      exact hrun
    · rw [hlen', List.length_erase_of_mem hc]
      have : rest.length ≤ (deck.erase c).length := ((hrestS.subperm) hrestsub).length_le
      rw [List.length_erase_of_mem hc] at this
      simp only [List.length_cons]
      omega
    · intro x
      rw [hmem' x, hd.mem_erase_iff]
      constructor
      · rintro ⟨⟨hxc, hxd⟩, hxr⟩
        exact ⟨hxd, by simp [hxc, hxr]⟩
      · rintro ⟨hxd, hxcr⟩
        simp only [List.mem_cons, not_or] at hxcr
        exact ⟨⟨hxcr.1, hxd⟩, hxcr.2⟩

/-- The removal loop raises a `ValueError` whenever some requested card is
not present when its turn comes: a duplicated request, or a card that is
not in the deck. -/
theorem removeCards_error {S : List Nat} {deck : List Nat} (hd : deck.Nodup)
    (h : ¬ S.Nodup ∨ ∃ c ∈ S, c ∉ deck) :
    ∃ e, removeCards deck S = Except.error e := by
  induction S generalizing deck with
  | nil =>
    rcases h with h | ⟨c, hc, _⟩
    · exact absurd List.nodup_nil h
    · exact absurd hc (List.not_mem_nil c)
  | cons c rest ih =>
    by_cases hc : c ∈ deck
    · have hrec : ¬ rest.Nodup ∨ ∃ x ∈ rest, x ∉ deck.erase c := by
        rcases h with h | ⟨x, hx, hxd⟩
        · rw [List.nodup_cons] at h
          push_neg at h
          by_cases hcr : c ∈ rest
          · refine Or.inr ⟨c, hcr, ?_⟩
            intro hbad
            exact ((hd.mem_erase_iff).mp hbad).1 rfl
          · exact Or.inl (h hcr)
        · rcases List.mem_cons.mp hx with rfl | hxr
          · exact absurd hc hxd
          · refine Or.inr ⟨x, hxr, ?_⟩
            intro hbad
            exact hxd (List.erase_subset _ _ hbad)
      obtain ⟨e, he⟩ := ih (hd.erase c) hrec
      refine ⟨e, ?_⟩
      rw [removeCards]
      have : deck.contains c = true := by simpa using hc
      simp only [this, if_true]
      exact he
    · refine ⟨"Card " ++ toString c ++ " is not available in the deck.", ?_⟩
      rw [removeCards]
      rw [if_neg (by simpa using hc)]

/-- The fresh deck has no duplicate cards. -/
theorem freshDeck_nodup : freshDeck.Nodup := List.nodup_range 52

/-- C6: removing a duplicate-free set `S` of cards of the fresh 52-card
deck succeeds; afterwards no card of `S` is present and the deck size is
`52 - |S|`. -/
theorem remove_from_freshDeck_spec (S : List Nat) (hS : S.Nodup)
    (hsub : S ⊆ freshDeck) :
    ∃ d', removeCards freshDeck S = Except.ok d' ∧
      (∀ c ∈ S, ¬ c ∈ d') ∧ d'.length = 52 - S.length := by
  obtain ⟨d', hrun, _, hlen, hmem⟩ := removeCards_spec freshDeck_nodup hS hsub
  refine ⟨d', hrun, ?_, ?_⟩
  · intro c hc hbad
    exact ((hmem c).mp hbad).2 hc
  · simpa using hlen

/-- Witness for C6 at the concrete set `S = {0, 5, 17}` (three distinct
cards of the fresh deck). -/
theorem remove_from_freshDeck_spec_witness :
    ∃ d', removeCards freshDeck [0, 5, 17] = Except.ok d' ∧
      (∀ c ∈ [0, 5, 17], ¬ c ∈ d') ∧ d'.length = 52 - ([0, 5, 17] : List Nat).length :=
  remove_from_freshDeck_spec [0, 5, 17] (by decide) (by decide)

/-- C5: if the hero and board tokens parse but name a card twice (or name
a card outside the fresh deck), `calculate_win_probability` stops with an
error raised by the removal loop; the simulation loop is never entered. -/
theorem duplicate_card_errors (ev : List Nat → List Nat → Nat)
    (hole_cards board_cards : List (List Char)) (num_players num_simulations : Nat)
    (rng : Nat → Nat) (hole_card_ints board_card_ints : List Nat)
    (hh : hole_cards.mapM parseCard = some hole_card_ints)
    (hb : board_cards.mapM parseCard = some board_card_ints)
    (hdup : ¬ (hole_card_ints ++ board_card_ints).Nodup ∨
      ∃ c ∈ hole_card_ints ++ board_card_ints, c ∉ freshDeck) :
    ∃ e, calculate_win_probability ev hole_cards board_cards num_players
      num_simulations rng = Except.error e := by
  obtain ⟨e, he⟩ := removeCards_error freshDeck_nodup hdup
  refine ⟨e, ?_⟩
  rw [calculate_win_probability, hh, hb]
  simp only [he]

/-- Witness for C5: the ace of spades appears in both the hero hand and
the board, and the call errors out. -/
theorem duplicate_card_errors_witness :
    ∃ e, calculate_win_probability (fun _ _ => 7) [['A', 's'], ['K', 's']]
      [['A', 's']] 2 1 (fun _ => 0) = Except.error e :=
  duplicate_card_errors (fun _ _ => 7) [['A', 's'], ['K', 's']] [['A', 's']] 2 1
    (fun _ => 0) [48, 44] [48] (by decide) (by decide) (Or.inl (by decide))

/-- One iteration of the simulation loop leaves the base deck, the hero
hole cards and the known board untouched: only `wins` (and the position in
the random stream) change. -/
theorem trialStep_frame (ev : List Nat → List Nat → Nat) (np : Nat) (rng : Nat → Nat)
    (st st' : SimState) (h : trialStep ev np rng st = Except.ok st') :
    st'.deck = st.deck ∧ st'.hole = st.hole ∧ st'.board = st.board := by
  rw [trialStep] at h
  split at h
  · exact absurd h (by simp)
  · split at h
    · exact absurd h (by simp)
    · simp only [Except.ok.injEq] at h
      rw [← h]
      exact ⟨rfl, rfl, rfl⟩

/-- C7: the simulation loop never mutates shared state: across any number
of trials the deck, the hero hole cards and the known board are returned
exactly as they were. -/
theorem runSim_frame (ev : List Nat → List Nat → Nat) (np : Nat) (rng : Nat → Nat)
    (n : Nat) (st st' : SimState) (h : runSim ev np rng n st = Except.ok st') :
    st'.deck = st.deck ∧ st'.hole = st.hole ∧ st'.board = st.board := by
  induction n generalizing st with
  | zero =>
    rw [runSim] at h
    simp only [Except.ok.injEq] at h
    rw [← h]
    exact ⟨rfl, rfl, rfl⟩
  | succ n ih =>
    rw [runSim] at h
    split at h
    · exact absurd h (by simp)
    · rename_i st1 heq
      obtain ⟨h1, h2, h3⟩ := trialStep_frame ev np rng st st1 heq
      obtain ⟨g1, g2, g3⟩ := ih st1 h
      exact ⟨g1.trans h1, g2.trans h2, g3.trans h3⟩

/-- Witness for C7: one concrete trial from the base deck for hero
`As Ks`, no board, heads-up. -/
theorem runSim_frame_witness :
    (runSim (fun _ _ => 7) 2 (fun _ => 0) 1
        ⟨(freshDeck.erase 48).erase 44, [48, 44], [], 0, 0⟩ =
      Except.ok ⟨(freshDeck.erase 48).erase 44, [48, 44], [], 1, 7⟩) ∧
    ((⟨(freshDeck.erase 48).erase 44, [48, 44], [], 1, 7⟩ : SimState).deck =
        (⟨(freshDeck.erase 48).erase 44, [48, 44], [], 0, 0⟩ : SimState).deck ∧
      (⟨(freshDeck.erase 48).erase 44, [48, 44], [], 1, 7⟩ : SimState).hole =
        (⟨(freshDeck.erase 48).erase 44, [48, 44], [], 0, 0⟩ : SimState).hole ∧
      (⟨(freshDeck.erase 48).erase 44, [48, 44], [], 1, 7⟩ : SimState).board =
        (⟨(freshDeck.erase 48).erase 44, [48, 44], [], 0, 0⟩ : SimState).board) :=
  ⟨by rfl, runSim_frame (fun _ _ => 7) 2 (fun _ => 0) 1
    ⟨(freshDeck.erase 48).erase 44, [48, 44], [], 0, 0⟩
    ⟨(freshDeck.erase 48).erase 44, [48, 44], [], 1, 7⟩ (by rfl)⟩

/-- C2 (amended): the trial outcome rule of the source.  Whenever the deal
and the opponent minimum are defined, the trial increments `wins` exactly
when `hero_score <= min(opponent_scores)` — so a trial in which the hero
ties the best opponent is counted as a full win. -/
theorem trialStep_win_rule (ev : List Nat → List Nat → Nat) (np : Nat)
    (rng : Nat → Nat) (st : SimState) (opps : List (List Nat)) (rb : List Nat)
    (pos1 m : Nat)
    (hdeal : dealTrial st.deck st.board.length np rng st.pos = some (opps, rb, pos1))
    (hmin : (opps.map fun opp_hand => ev (st.board ++ rb) opp_hand).min? = some m) :
    trialStep ev np rng st =
      Except.ok { st with wins := if ev (st.board ++ rb) st.hole ≤ m
                            then st.wins + 1 else st.wins,
                          pos := pos1 } := by
  simp only [trialStep, hdeal, hmin]

/-- Witness for the amended C2 at a concrete heads-up trial. -/
theorem trialStep_win_rule_witness :
    trialStep (fun _ _ => 7) 2 (fun _ => 0)
        ⟨(freshDeck.erase 48).erase 44, [48, 44], [], 0, 0⟩ =
      Except.ok { (⟨(freshDeck.erase 48).erase 44, [48, 44], [], 0, 0⟩ : SimState) with
                    wins := if (fun (_ _ : List Nat) => 7) ([] ++ [2, 3, 4, 5, 6]) [48, 44] ≤ 7
                      then 0 + 1 else 0,
                    pos := 7 } :=
  trialStep_win_rule (fun _ _ => 7) 2 (fun _ => 0)
    ⟨(freshDeck.erase 48).erase 44, [48, 44], [], 0, 0⟩
    [[0, 1]] [2, 3, 4, 5, 6] 7 7 (by rfl) (by rfl)

/-- C2 counterexample: a concrete trial in which the hero score equals
the best (minimum) opponent score — `7 = 7` with a constant evaluator —
and the win counter is nevertheless incremented from 0 to 1: a tie is
counted as a full win, not a split pot. -/
theorem tie_counted_as_full_win :
    (dealTrial ((freshDeck.erase 48).erase 44) 0 2 (fun _ => 0) 0
        = some ([[0, 1]], [2, 3, 4, 5, 6], 7)) ∧
    ((fun (_ _ : List Nat) => 7) ([] ++ [2, 3, 4, 5, 6]) [48, 44]
        = (([[0, 1]].map fun opp_hand =>
            (fun (_ _ : List Nat) => 7) ([] ++ [2, 3, 4, 5, 6]) opp_hand).min?).getD 0) ∧
    (trialStep (fun _ _ => 7) 2 (fun _ => 0)
        ⟨(freshDeck.erase 48).erase 44, [48, 44], [], 0, 0⟩
      = Except.ok ⟨(freshDeck.erase 48).erase 44, [48, 44], [], 1, 7⟩) :=
  ⟨by rfl, by rfl, by rfl⟩

/-- C1: the source deals each opponent hand by an independent
`sample(deck.cards, 2)` call, so with three players the two opponents can
be dealt the very same two cards.  Concretely, after removing hero
`As Ks` (cards 48 and 44), the random stream that always picks index 0
gives both opponents the hand `{0, 1}` — the sampled groups are not
pairwise disjoint. -/
theorem opponents_hands_can_overlap :
    (removeCards freshDeck ([48, 44] ++ ([] : List Nat))
        = Except.ok ((freshDeck.erase 48).erase 44)) ∧
    (dealTrial ((freshDeck.erase 48).erase 44) 0 3 (fun _ => 0) 0
        = some ([[0, 1], [0, 1]], [2, 3, 4, 5, 6], 9)) ∧
    ¬ ([[0, 1], [0, 1]] : List (List Nat)).Pairwise
        (fun g1 g2 => ∀ c ∈ g1, ¬ c ∈ g2) :=
  ⟨by rfl, by rfl, by decide⟩

/-- C8: with a full 5-card known board, the board-completion draw of every
trial is empty and the final board used for evaluation is exactly the
known board. -/
theorem full_board_draws_nothing (st : SimState) (np : Nat) (rng : Nat → Nat)
    (opps : List (List Nat)) (rb : List Nat) (pos' : Nat)
    (hlen : st.board.length = 5)
    (h : dealTrial st.deck st.board.length np rng st.pos = some (opps, rb, pos')) :
    rb = [] ∧ st.board ++ rb = st.board := by
  rw [hlen] at h
  rw [dealTrial] at h
  split at h
  · exact absurd h (by simp)
  · rename_i opps1 pos1 heq
    simp only [Nat.sub_self, sampleK, Option.some.injEq, Prod.mk.injEq] at h
    refine ⟨h.2.1.symm, ?_⟩
    rw [← h.2.1]
    simp

/-- Witness for C8: hero `As Ks` with the full known board `{0,1,2,3,4}`,
heads-up; the only sampling is one opponent hand. -/
theorem full_board_draws_nothing_witness :
    ((⟨(((((freshDeck.erase 48).erase 44).erase 0).erase 1).erase 2).erase 3 |>.erase 4,
        [48, 44], [0, 1, 2, 3, 4], 0, 0⟩ : SimState).board.length = 5) ∧
    (([] : List Nat) = [] ∧
      (⟨(((((freshDeck.erase 48).erase 44).erase 0).erase 1).erase 2).erase 3 |>.erase 4,
        [48, 44], [0, 1, 2, 3, 4], 0, 0⟩ : SimState).board ++ ([] : List Nat) =
      (⟨(((((freshDeck.erase 48).erase 44).erase 0).erase 1).erase 2).erase 3 |>.erase 4,
        [48, 44], [0, 1, 2, 3, 4], 0, 0⟩ : SimState).board) :=
  ⟨by rfl, full_board_draws_nothing
    ⟨(((((freshDeck.erase 48).erase 44).erase 0).erase 1).erase 2).erase 3 |>.erase 4,
      [48, 44], [0, 1, 2, 3, 4], 0, 0⟩ 2 (fun _ => 0) [[5, 6]] [] 2 (by rfl) (by rfl)⟩

/-- C9: the whole computation is a deterministic function of its inputs
and the random stream: two runs that read identical random values from
identical inputs return identical results. -/
theorem deterministic_under_seed (ev : List Nat → List Nat → Nat)
    (hole_cards board_cards : List (List Char)) (num_players num_simulations : Nat)
    (rng1 rng2 : Nat → Nat) (h : ∀ i, rng1 i = rng2 i) :
    calculate_win_probability ev hole_cards board_cards num_players num_simulations rng1 =
      calculate_win_probability ev hole_cards board_cards num_players num_simulations rng2 := by
  rw [show rng1 = rng2 from funext h]

/-- Witness for C9 on a concrete stream. -/
theorem deterministic_under_seed_witness :
    calculate_win_probability (fun _ _ => 7) [['A', 's'], ['K', 's']] [] 2 1 (fun _ => 0) =
      calculate_win_probability (fun _ _ => 7) [['A', 's'], ['K', 's']] [] 2 1 (fun _ => 0) :=
  deterministic_under_seed (fun _ _ => 7) [['A', 's'], ['K', 's']] [] 2 1
    (fun _ => 0) (fun _ => 0) (fun _ => rfl)

/-- A trial increments the win counter by at most one. -/
theorem trialStep_wins_le (ev : List Nat → List Nat → Nat) (np : Nat)
    (rng : Nat → Nat) (st st' : SimState)
    (h : trialStep ev np rng st = Except.ok st') : st'.wins ≤ st.wins + 1 := by
  rw [trialStep] at h
  split at h
  · exact absurd h (by simp)
  · split at h
    · exact absurd h (by simp)
    · simp only [Except.ok.injEq] at h
      rw [← h]
      dsimp only
      split <;> omega

/-- Over `n` trials the win counter grows by at most `n`. -/
theorem runSim_wins_le (ev : List Nat → List Nat → Nat) (np : Nat)
    (rng : Nat → Nat) (n : Nat) (st st' : SimState)
    (h : runSim ev np rng n st = Except.ok st') : st'.wins ≤ st.wins + n := by
  induction n generalizing st with
  | zero =>
    rw [runSim] at h
    simp only [Except.ok.injEq] at h
    subst h
    omega
  | succ n ih =>
    rw [runSim] at h
    split at h
    · exact absurd h (by simp)
    · rename_i st1 heq
      have h1 := trialStep_wins_le ev np rng st st1 heq
      have h2 := ih st1 h
      omega

/-- C10: whenever the call returns a value for a positive number of
simulations, that value lies between 0 and 100: the counter starts at 0,
grows by at most one per trial, and the result is
`(wins / num_simulations) * 100`. -/
theorem win_probability_bounds (ev : List Nat → List Nat → Nat)
    (hole_cards board_cards : List (List Char)) (num_players num_simulations : Nat)
    (rng : Nat → Nat) (q : ℚ) (hns : 0 < num_simulations)
    (h : calculate_win_probability ev hole_cards board_cards num_players
      num_simulations rng = Except.ok q) : 0 ≤ q ∧ q ≤ 100 := by
  rw [calculate_win_probability] at h
  split at h
  · rename_i hole_card_ints board_card_ints hh hb
    split at h
    · exact absurd h (by simp)
    · rename_i deck hdeck
      split at h
      · exact absurd h (by simp)
      · rename_i st hst
        simp only [Except.ok.injEq] at h
        have hwins : st.wins ≤ num_simulations := by
          have := runSim_wins_le ev num_players rng num_simulations _ st hst
          simpa using this
        have hq : q = (st.wins : ℚ) / (num_simulations : ℚ) * 100 := h.symm
        have hnspos : (0 : ℚ) < (num_simulations : ℚ) := by exact_mod_cast hns
        have hwq : (st.wins : ℚ) ≤ (num_simulations : ℚ) := by exact_mod_cast hwins
        constructor
        · rw [hq]
          positivity
        · rw [hq]
          have hdiv : (st.wins : ℚ) / (num_simulations : ℚ) ≤ 1 :=
            (div_le_one hnspos).mpr hwq
          calc (st.wins : ℚ) / (num_simulations : ℚ) * 100
              ≤ 1 * 100 := by
                exact mul_le_mul_of_nonneg_right hdiv (by norm_num)
            _ = 100 := by norm_num
  · exact absurd h (by simp)

/-- Witness for C10: a heads-up run of one trial with a constant
evaluator, which returns exactly 100. -/
theorem win_probability_bounds_witness :
    0 < 1 ∧ (0 ≤ (((1 : Nat) : ℚ) / ((1 : Nat) : ℚ) * 100) ∧
      (((1 : Nat) : ℚ) / ((1 : Nat) : ℚ) * 100) ≤ 100) :=
  ⟨by decide, win_probability_bounds (fun _ _ => 7) [['A', 's'], ['K', 's']] [] 2 1
    (fun _ => 0) (((1 : Nat) : ℚ) / ((1 : Nat) : ℚ) * 100) (by decide) (by rfl)⟩

/-- The opponent-dealing comprehension succeeds on any deck with at least
two cards, and yields the requested number of two-card hands. -/
theorem sampleOpponents_ok (deck : List Nat) (n : Nat) (rng : Nat → Nat) (pos : Nat)
    (h2 : 2 ≤ deck.length) :
    ∃ opps pos', sampleOpponents deck n rng pos = some (opps, pos') ∧
      opps.length = n ∧ ∀ o ∈ opps, o.length = 2 := by
  induction n generalizing pos with
  | zero => exact ⟨[], pos, rfl, rfl, by simp⟩
  | succ n ih =>
    have hs := @sampleK_isSome 2 deck rng pos h2
    cases hk : sampleK deck 2 rng pos with
    | none => rw [hk] at hs; exact absurd hs (by simp)
    | some r =>
      obtain ⟨h, pos1⟩ := r
      obtain ⟨opps, pos', hrun, hlen, hall⟩ := ih pos1
      refine ⟨h :: opps, pos', ?_, by simp [hlen], ?_⟩
      · simp only [sampleOpponents, hk, hrun]
      · intro o ho
        rcases List.mem_cons.mp ho with rfl | ho2
        · exact sampleK_length hk
        · exact hall o ho2

/-- The concatenation of hands of two cards each has `2 * count` cards. -/
theorem flatten_length_two {opps : List (List Nat)}
    (h : ∀ o ∈ opps, o.length = 2) : opps.flatten.length = 2 * opps.length := by
  induction opps with
  | nil => simp
  | cons o rest ih =>
    have ho := h o (List.mem_cons_self o rest)
    have hrest := ih fun x hx => h x (List.mem_cons_of_mem _ hx)
    simp only [List.flatten_cons, List.length_append, List.length_cons, ho, hrest]
    ring

/-- Filtering out the members of a list `bad` from a duplicate-free deck
removes at most `bad.length` cards. -/
theorem filter_not_mem_length (deck bad : List Nat) (hnd : deck.Nodup) :
    deck.length - bad.length ≤ (deck.filter fun c => !(bad.contains c)).length := by
  have hperm := (List.filter_append_perm (fun c => bad.contains c) deck).length_eq
  have hsplit : (deck.filter fun c => bad.contains c).length +
      (deck.filter fun c => !(bad.contains c)).length = deck.length := by
    simpa [List.length_append] using hperm
  have hle : (deck.filter fun c => bad.contains c).length ≤ bad.length := by
    refine List.Subperm.length_le (List.Nodup.subperm (hnd.filter _) ?_)
    intro x hx
    have := List.of_mem_filter hx
    simpa using this
  omega

/-- When the deck is duplicate-free and large enough for all requested
draws, a trial always succeeds, preserving deck, hole and board and
increasing `wins` by at most one. -/
theorem trialStep_ok (ev : List Nat → List Nat → Nat) (np : Nat) (rng : Nat → Nat)
    (st : SimState) (hnd : st.deck.Nodup) (hnp : 1 ≤ np - 1)
    (hspace : 2 * (np - 1) + (5 - st.board.length) ≤ st.deck.length) :
    ∃ st', trialStep ev np rng st = Except.ok st' ∧ st'.deck = st.deck ∧
      st'.hole = st.hole ∧ st'.board = st.board := by
  have h2 : 2 ≤ st.deck.length := by omega
  obtain ⟨opps, pos1, hso, hlen, hall⟩ := sampleOpponents_ok st.deck (np - 1) rng st.pos h2
  have hflat : opps.flatten.length = 2 * (np - 1) := by
    rw [flatten_length_two hall, hlen]
  have hpool : 5 - st.board.length ≤
      (st.deck.filter fun c => !((opps.flatten).contains c)).length := by
    have := filter_not_mem_length st.deck opps.flatten hnd
    omega
  have hsk := @sampleK_isSome (5 - st.board.length)
    (st.deck.filter fun c => !((opps.flatten).contains c)) rng pos1 hpool
  cases hk : sampleK (st.deck.filter fun c => !((opps.flatten).contains c))
      (5 - st.board.length) rng pos1 with
  | none => rw [hk] at hsk; exact absurd hsk (by simp)
  | some r =>
    obtain ⟨rb, pos2⟩ := r
    have hdeal : dealTrial st.deck st.board.length np rng st.pos = some (opps, rb, pos2) := by
      simp only [dealTrial, hso, hk]
    obtain ⟨o, os, rfl⟩ : ∃ o os, opps = o :: os := by
      cases opps with
      | nil => simp at hlen; omega
      | cons o os => exact ⟨o, os, rfl⟩
    obtain ⟨m, hm⟩ : ∃ m,
        ((o :: os).map fun opp_hand => ev (st.board ++ rb) opp_hand).min? = some m :=
      ⟨_, by rw [List.map_cons, List.min?_cons]⟩
    exact ⟨⟨st.deck, st.hole, st.board,
        if ev (st.board ++ rb) st.hole ≤ m then st.wins + 1 else st.wins, pos2⟩,
      by simp only [trialStep, hdeal, hm], rfl, rfl, rfl⟩

/-- On a duplicate-free deck that is large enough for the draws of every trial,
the whole simulation loop runs to completion. -/
theorem runSim_ok (ev : List Nat → List Nat → Nat) (np : Nat) (rng : Nat → Nat)
    (ns : Nat) :
    ∀ st : SimState, st.deck.Nodup → 1 ≤ np - 1 →
      2 * (np - 1) + (5 - st.board.length) ≤ st.deck.length →
      ∃ st', runSim ev np rng ns st = Except.ok st' := by
  induction ns with
  | zero =>
    intro st _ _ _
    exact ⟨st, by rw [runSim]⟩
  | succ n ih =>
    intro st hnd hnp hspace
    obtain ⟨st1, hstep, hd, hh, hb⟩ := trialStep_ok ev np rng st hnd hnp hspace
    obtain ⟨st', hrun⟩ := ih st1 (by rw [hd]; exact hnd) hnp
      (by rw [hd, hb]; exact hspace)
    refine ⟨st', ?_⟩
    simp only [runSim, hstep]
    exact hrun

/-- C3 counterexample: `calculate_win_probability` accepts
`num_players = 11` without any player-count check — the call completes
normally and returns a percentage instead of failing. -/
theorem no_player_count_error_at_eleven :
    calculate_win_probability (fun _ _ => 7) [['A', 's'], ['K', 's']] [] 11 1 (fun _ => 0)
      = Except.ok (((1 : Nat) : ℚ) / ((1 : Nat) : ℚ) * 100) := by rfl

/-- C3 (amended): `calculate_win_probability` performs no validation of
`num_players`; with `num_players = 11` (a value outside `[2, 10]`) and
valid cards the simulations run and a win percentage is returned, for any
evaluator, any positive trial count and any random stream.  (The UI
slider, not this function, is what restricts the player count to
`[2, 10]`; `num_simulations = 0` is excluded because Python then divides
by zero when forming the percentage.) -/
theorem no_player_count_validation (ev : List Nat → List Nat → Nat) (ns : Nat)
    (rng : Nat → Nat) (_hns : 0 < ns) :
    ∃ q, calculate_win_probability ev [['A', 's'], ['K', 's']] [] 11 ns rng
      = Except.ok q := by
  have hunfold : calculate_win_probability ev [['A', 's'], ['K', 's']] [] 11 ns rng =
      match runSim ev 11 rng ns ⟨(freshDeck.erase 48).erase 44, [48, 44], [], 0, 0⟩ with
      | Except.error e => Except.error e
      | Except.ok st => Except.ok ((st.wins : ℚ) / (ns : ℚ) * 100) := rfl
  obtain ⟨st', hrun⟩ := runSim_ok ev 11 rng ns
    ⟨(freshDeck.erase 48).erase 44, [48, 44], [], 0, 0⟩ (by decide) (by decide) (by decide)
  exact ⟨(st'.wins : ℚ) / (ns : ℚ) * 100, by rw [hunfold, hrun]⟩

/-- Witness for the amended C3 at one trial. -/
theorem no_player_count_validation_witness :
    0 < 1 ∧ ∃ q, calculate_win_probability (fun _ _ => 7)
      [['A', 's'], ['K', 's']] [] 11 1 (fun _ => 0) = Except.ok q :=
  ⟨by decide, no_player_count_validation (fun _ _ => 7) 1 (fun _ => 0) (by decide)⟩
